import Mathlib

/-!
Shallow embedding of the EVCS versioning engine of `backcast_evs`
(`src/backend/app/core/versioning/commands.py`,
`src/backend/app/core/versioning/branch_service.py`,
`src/backend/app/models/mixins.py`).

A tracked entity table is a list of rows.  One `Row` models one snapshot
(`VersionableMixin` + `BranchableMixin` columns plus the business fields,
the latter as an association list of column name to value).  Timestamps
are natural numbers; `validTo = none` models an open-ended upper bound on
the `valid_time` TSTZRANGE.  Each command takes the table, the value of
`current_timestamp` for its transaction, and its arguments, and returns
the new table together with the row the Python `execute` returns, or an
error mirroring the command's `raise ValueError(...)` sites.
-/

namespace EVCS

/-- One snapshot row: the columns of `VersionableMixin`/`BranchableMixin`
plus the root-identifier column (`rootId`, e.g. `project_id`) and the
entity-specific business columns (`fields`). -/
structure Row where
  id : Nat
  rootId : Nat
  branch : String
  validFrom : Nat
  validTo : Option Nat
  txFrom : Nat
  deletedAt : Option Nat
  parentId : Option Nat
  mergeFromBranch : Option String
  fields : List (String × Int)
deriving Repr, DecidableEq

/-- Errors: the distinct `raise ValueError(...)` sites in
`core/versioning/commands.py`.  The spec's taxonomy calls the first four
`NotFoundError` and the last one `ValidationError`. -/
inductive Err where
  /-- `ValueError("No active version found for {root_id}")` in
  `UpdateVersionCommand.execute`. -/
  | noActiveVersion (rootId : Nat)
  /-- `ValueError("No active version on branch {branch} for {root_id}")` in
  `UpdateCommand`, `CreateBranchCommand` and `RevertCommand`. -/
  | noActiveVersionOnBranch (branch : String) (rootId : Nat)
  /-- `ValueError("Source branch {b} not found or inactive.")` in
  `MergeBranchCommand.execute`. -/
  | sourceBranchInactive (branch : String)
  /-- `ValueError("Target branch {b} not found or inactive.")` in
  `MergeBranchCommand.execute`. -/
  | targetBranchInactive (branch : String)
  /-- `ValueError("Cannot revert: No target version specified or no parent
  found.")` in `RevertCommand.execute`. -/
  | cannotRevert
deriving Repr, DecidableEq

/-- Dictionary lookup on the business-field association list. -/
def lookupField (fs : List (String × Int)) (k : String) : Option Int :=
  match fs with
  | [] => none
  | p :: rest => if p.1 = k then some p.2 else lookupField rest k

/-- One assignment of Python `dict.update`: replace the entry for `k` in
place when present, append at the end otherwise (insertion-order
semantics of a Python dict with unique keys). -/
def setField (fs : List (String × Int)) (k : String) (v : Int) :
    List (String × Int) :=
  match fs with
  | [] => [(k, v)]
  | p :: rest => if p.1 = k then (k, v) :: rest else p :: setField rest k v

/-- The `data.update(overrides)` step of `VersionableMixin.clone`: apply
each update in order. -/
def applyUpdates (fs us : List (String × Int)) : List (String × Int) :=
  us.foldl (fun acc p => setField acc p.1 p.2) fs

/-- `VersionableMixin.clone`: copy every column, apply the keyword
overrides on top, then pop `id`, `valid_time` and `transaction_time` so
the database assigns them afresh (`newId` for the primary key, the
server default `tstzrange(now(), null)` for both ranges).  An override
argument of `none` means the keyword was not passed, so the source
column value is kept; `deleted_at` and the root-identifier column are
always copied. -/
def Row.clone (r : Row) (newId now : Nat) (updates : List (String × Int))
    (branchOv : Option String) (parentOv : Option (Option Nat))
    (mergeOv : Option (Option String)) : Row :=
  { id := newId
    rootId := r.rootId
    branch := branchOv.getD r.branch
    validFrom := now
    validTo := none
    txFrom := now
    deletedAt := r.deletedAt
    parentId := parentOv.getD r.parentId
    mergeFromBranch := mergeOv.getD r.mergeFromBranch
    fields := applyUpdates r.fields updates }

/-- `VersionableMixin.soft_delete`: set `deleted_at = now` in place. -/
def Row.softDelete (r : Row) (now : Nat) : Row :=
  { r with deletedAt := some now }

/-- The `valid_time @> current_timestamp` predicate for a half-open range
`[validFrom, validTo)`, with `validTo = none` meaning unbounded. -/
def containsNow (r : Row) (now : Nat) : Bool :=
  decide (r.validFrom ≤ now) &&
    (match r.validTo with
     | none => true
     | some u => decide (now < u))

/-- The `order_by(valid_time.desc()).limit(1)` step: the row with the
greatest lower bound among the selected rows (first one wins on ties). -/
def latest? (rs : List Row) : Option Row :=
  rs.foldl
    (fun acc r =>
      match acc with
      | none => some r
      | some m => if m.validFrom < r.validFrom then some m else
          if r.validFrom ≤ m.validFrom then some m else some r)
    none

/-- A fresh primary key for an inserted row (the database generates a new
unique id on flush). -/
def freshId (db : List Row) : Nat :=
  db.foldl (fun m r => max m r.id) 0 + 1

/-- `_get_current` of `UpdateVersionCommand`/`SoftDeleteCommand`: rows of
the root whose `valid_time` contains `current_timestamp` and whose
`deleted_at` is null, newest first, limit 1 (no branch filter). -/
def getCurrentVersioned (db : List Row) (rootId now : Nat) : Option Row :=
  latest? (db.filter fun r =>
    r.rootId == rootId && containsNow r now && r.deletedAt == none)

/-- `BranchCommandABC._get_current_on_branch`: the same query additionally
filtered on the `branch` column. -/
def getCurrentOnBranch (db : List Row) (rootId : Nat) (branch : String)
    (now : Nat) : Option Row :=
  latest? (db.filter fun r =>
    r.rootId == rootId && r.branch == branch && containsNow r now &&
      r.deletedAt == none)

/-- `VersionedCommandABC._close_version`: `UPDATE ... SET valid_time =
tstzrange(lower(valid_time), current_timestamp) WHERE id = version.id`. -/
def closeVersion (db : List Row) (vid now : Nat) : List Row :=
  db.map fun r => if r.id = vid then { r with validTo := some now } else r

/-- `session.get(entity_class, version_id)`: primary-key lookup. -/
def sessionGet (db : List Row) (vid : Nat) : Option Row :=
  db.find? fun r => r.id == vid

/-- `CreateVersionCommand.execute`: insert one new row with the given
root id, branch and business fields, open-ended ranges and mixin
defaults; no precondition is checked. -/
def createVersion (db : List Row) (now rootId : Nat) (branch : String)
    (fields : List (String × Int)) : List Row × Row :=
  let r : Row :=
    { id := freshId db
      rootId := rootId
      branch := branch
      validFrom := now
      validTo := none
      txFrom := now
      deletedAt := none
      parentId := none
      mergeFromBranch := none
      fields := fields }
  (db ++ [r], r)

/-- `UpdateVersionCommand.execute`: fetch the current row, clone it with
the updates, then call the overridden `_close_version` — whose body in
the source is `pass`, so no row is closed — and insert the clone. -/
def updateVersionCommand (db : List Row) (now rootId : Nat)
    (updates : List (String × Int)) : Except Err (List Row × Row) :=
  match getCurrentVersioned db rootId now with
  | none => .error (.noActiveVersion rootId)
  | some current =>
      let newVersion := current.clone (freshId db) now updates none none none
      .ok (db ++ [newVersion], newVersion)

/-- `SoftDeleteCommand.execute`: fetch the current row; when found, set
its `deleted_at` in place and return it; when absent, return `None`
without raising. -/
def softDeleteCommand (db : List Row) (now rootId : Nat) :
    Except Err (List Row × Option Row) :=
  match getCurrentVersioned db rootId now with
  | none => .ok (db, none)
  | some current =>
      let db1 := db.map fun r =>
        if r.id = current.id then r.softDelete now else r
      .ok (db1, some (current.softDelete now))

/-- `CreateBranchCommand.execute`: clone the source branch's current row
onto the new branch with `parent_id = source.id`; the source row is not
closed. -/
def createBranchCommand (db : List Row) (now rootId : Nat)
    (newBranch fromBranch : String) : Except Err (List Row × Row) :=
  match getCurrentOnBranch db rootId fromBranch now with
  | none => .error (.noActiveVersionOnBranch fromBranch rootId)
  | some source =>
      let branched :=
        source.clone (freshId db) now [] (some newBranch)
          (some (some source.id)) none
      .ok (db ++ [branched], branched)

/-- `UpdateCommand.execute`: fetch the branch's current row, clone it
with the updates and `parent_id = current.id`, close the current row,
insert the clone. -/
def updateCommand (db : List Row) (now rootId : Nat) (branch : String)
    (updates : List (String × Int)) : Except Err (List Row × Row) :=
  match getCurrentOnBranch db rootId branch now with
  | none => .error (.noActiveVersionOnBranch branch rootId)
  | some current =>
      let newVersion :=
        current.clone (freshId db) now updates none (some (some current.id))
          none
      .ok (closeVersion db current.id now ++ [newVersion], newVersion)

/-- `MergeBranchCommand.execute`: fetch both branch heads, clone the
source's onto the target branch with `parent_id = target.id` and
`merge_from_branch = source_branch`, close the target's head, insert the
clone. -/
def mergeBranchCommand (db : List Row) (now rootId : Nat)
    (sourceBranch targetBranch : String) : Except Err (List Row × Row) :=
  match getCurrentOnBranch db rootId sourceBranch now with
  | none => .error (.sourceBranchInactive sourceBranch)
  | some source =>
      match getCurrentOnBranch db rootId targetBranch now with
      | none => .error (.targetBranchInactive targetBranch)
      | some target =>
          let merged :=
            source.clone (freshId db) now [] (some targetBranch)
              (some (some target.id)) (some (some sourceBranch))
          .ok (closeVersion db target.id now ++ [merged], merged)

/-- `RevertCommand.execute`: fetch the branch's current row; resolve the
target snapshot from the explicit `to_version_id` when given, else from
`current.parent_id`; clone the target back onto the branch with
`parent_id = current.id` and `merge_from_branch = None`; close the
current row, insert the clone. -/
def revertCommand (db : List Row) (now rootId : Nat) (branch : String)
    (toVersionId : Option Nat) : Except Err (List Row × Row) :=
  match getCurrentOnBranch db rootId branch now with
  | none => .error (.noActiveVersionOnBranch branch rootId)
  | some current =>
      let targetVersion : Option Row :=
        match toVersionId with
        | some vid => sessionGet db vid
        | none =>
            match current.parentId with
            | some pid => sessionGet db pid
            | none => none
      match targetVersion with
      | none => .error .cannotRevert
      | some target =>
          let reverted :=
            target.clone (freshId db) now [] (some branch)
              (some (some current.id)) (some none)
          .ok (closeVersion db current.id now ++ [reverted], reverted)

/-- Rows of a `(root_id, branch)` pair with `upper(valid_time) = null`
and `deleted_at` null: the rows the at-most-one-current invariant
counts. -/
def openCurrentRows (db : List Row) (rootId : Nat) (branch : String) :
    List Row :=
  db.filter fun r =>
    r.rootId == rootId && r.branch == branch && r.validTo == none &&
      r.deletedAt == none

/-- Rows of a root with `upper(valid_time) = null`, regardless of
`deleted_at` (used by the soft-delete idempotence claim). -/
def openRowsFor (db : List Row) (rootId : Nat) : List Row :=
  db.filter fun r => r.rootId == rootId && r.validTo == none

/-- Python `str.lower()` on an entity class name. -/
def lowerName (s : String) : String := String.mk (s.data.map Char.toLower)

/-- Python `str.endswith(suffix)`. -/
def strEndsWith (s suffix : String) : Bool := suffix.data.isSuffixOf s.data

/-- `VersionedCommandABC._root_field_name` (duplicated verbatim in
`BranchableService.get_current`/`create_root`): lower-case the class
name, drop the last 7 characters when it ends in `"version"`, append
`"_id"`. -/
def rootFieldName (className : String) : String :=
  let lower := lowerName className
  let stripped := if strEndsWith lower "version"
    then String.mk (lower.data.take (lower.data.length - 7)) else lower
  stripped ++ "_id"

/-- Modelled from the spec's words for comparison with `rootFieldName`:
derive the root field name "by lower-casing it and, if the name ends in
a recognized version/snapshot suffix, stripping that suffix, then
appending `_id`". -/
def specRootFieldName (className : String) : String :=
  let lower := lowerName className
  let stripped := if strEndsWith lower "version"
    then String.mk (lower.data.take (lower.data.length - 7))
    else if strEndsWith lower "snapshot"
      then String.mk (lower.data.take (lower.data.length - 8))
      else lower
  stripped ++ "_id"

/-- Concrete current snapshot on branch `main` of root 5, used by the
witness theorems. -/
def sampleRow : Row :=
  ⟨1, 5, "main", 0, none, 0, none, none, none, [("name", 1)]⟩

/-- Concrete snapshot belonging to a different root (9) and branch
(`other`) than `sampleRow`. -/
def foreignRow : Row :=
  ⟨2, 9, "other", 0, none, 0, none, none, none, [("name", 77)]⟩

/-- Concrete current snapshot with two business fields `a = 1`, `b = 2`. -/
def rowAB : Row := ⟨1, 5, "main", 0, none, 0, none, none, none, [("a", 1), ("b", 2)]⟩

/-- Concrete current snapshot of root 5 on branch `feature`. -/
def featRow : Row := ⟨2, 5, "feature", 0, none, 0, none, none, none, [("name", 2)]⟩

/-- Concrete closed historical snapshot `v1` of root 5. -/
def histRow1 : Row := ⟨1, 5, "main", 0, some 2, 0, none, none, none, [("name", 1)]⟩

/-- Concrete current snapshot `v2` of root 5 whose parent is `histRow1`. -/
def histRow2 : Row := ⟨2, 5, "main", 2, none, 2, none, some 1, none, [("name", 9)]⟩

/-- The snapshot `CreateBranch` clones from `sampleRow` onto `feature` at
time 1. -/
def branchedRow : Row :=
  ⟨2, 5, "feature", 1, none, 1, none, some 1, none, [("name", 1)]⟩

/-- `branchedRow` after being closed at time 2 by the branch update. -/
def closedBranchedRow : Row :=
  ⟨2, 5, "feature", 1, some 2, 1, none, some 1, none, [("name", 1)]⟩

/-- The new `feature` head produced by updating `branchedRow` at time 2. -/
def updatedRow : Row := ⟨3, 5, "feature", 2, none, 2, none, some 2, none, [("name", 7)]⟩

end EVCS

namespace EVCS

/-- A row returned by `latest?` is one of the candidate rows. -/
theorem latest?_mem {rs : List Row} {r : Row} (h : latest? rs = some r) : r ∈ rs := by
  unfold latest? at h
  suffices h2 : ∀ (acc : Option Row) (l : List Row) (x : Row),
      l.foldl (fun acc r =>
        match acc with
        | none => some r
        | some m => if m.validFrom < r.validFrom then some m else
            if r.validFrom ≤ m.validFrom then some m else some r) acc = some x →
      x ∈ l ∨ acc = some x by
    rcases h2 none rs r h with h3 | h3
    · exact h3
    · exact absurd h3 (by simp)
  intro acc l
  induction l generalizing acc with
  | nil => intro x hx; right; exact hx
  | cons a rest ih =>
    intro x hx
    simp only [List.foldl_cons] at hx
    rcases ih _ x hx with h3 | h3
    · left; exact List.mem_cons_of_mem _ h3
    · match acc with
      | none => left; simp at h3; simp [h3]
      | some m =>
        simp only at h3
        split at h3
        · right; exact h3
        · split at h3
          · right; exact h3
          · left; simp at h3; simp [h3]

/-- A row returned by `_get_current_on_branch` belongs to the table and
satisfies the query's filter. -/
theorem getCurrentOnBranch_spec {db : List Row} {rootId now : Nat} {branch : String}
    {c : Row} (h : getCurrentOnBranch db rootId branch now = some c) :
    c ∈ db ∧ c.rootId = rootId ∧ c.branch = branch ∧ containsNow c now = true ∧
      c.deletedAt = none := by
  have hm := latest?_mem h
  rw [List.mem_filter] at hm
  obtain ⟨hmem, hp⟩ := hm
  simp only [Bool.and_eq_true, beq_iff_eq] at hp
  exact ⟨hmem, hp.1.1.1, hp.1.1.2, hp.1.2, hp.2⟩

/-- A row returned by the versioned `_get_current` belongs to the table
and satisfies the query's filter. -/
theorem getCurrentVersioned_spec {db : List Row} {rootId now : Nat}
    {c : Row} (h : getCurrentVersioned db rootId now = some c) :
    c ∈ db ∧ c.rootId = rootId ∧ containsNow c now = true ∧ c.deletedAt = none := by
  have hm := latest?_mem h
  rw [List.mem_filter] at hm
  obtain ⟨hmem, hp⟩ := hm
  simp only [Bool.and_eq_true, beq_iff_eq] at hp
  exact ⟨hmem, hp.1.1, hp.1.2, hp.2⟩

/-- Folding `max` over ids never drops below the accumulator. -/
theorem foldl_max_id_le (l : List Row) (a : Nat) :
    a ≤ l.foldl (fun m x => max m x.id) a := by
  induction l generalizing a with
  | nil => simp
  | cons y ys ih =>
    simp only [List.foldl_cons]
    exact le_trans (le_max_left _ _) (ih _)

/-- Every stored row's id is strictly below the freshly generated id. -/
theorem lt_freshId {db : List Row} {r : Row} (h : r ∈ db) : r.id < freshId db := by
  unfold freshId
  have key : ∀ (l : List Row) (a : Nat), r ∈ l →
      r.id ≤ l.foldl (fun m x => max m x.id) a := by
    intro l
    induction l with
    | nil => intro a hx; cases hx
    | cons x rest ih =>
      intro a hx
      simp only [List.foldl_cons]
      rcases List.mem_cons.mp hx with h1 | h1
      · subst h1
        exact le_trans (le_max_right _ _) (foldl_max_id_le _ _)
      · exact ih _ h1
  exact Nat.lt_succ_of_le (key db 0 h)

/-- A primary-key lookup returns a stored row with that id. -/
theorem sessionGet_mem {db : List Row} {vid : Nat} {r : Row}
    (h : sessionGet db vid = some r) : r ∈ db ∧ r.id = vid := by
  unfold sessionGet at h
  refine ⟨List.mem_of_find?_eq_some h, ?_⟩
  have := List.find?_some h
  simpa using this

/-- Setting a key makes it present with the assigned value. -/
theorem lookupField_setField_self (fs : List (String × Int)) (k : String) (v : Int) :
    lookupField (setField fs k v) k = some v := by
  induction fs with
  | nil => simp [setField, lookupField]
  | cons p rest ih =>
    by_cases h : p.1 = k
    · simp [setField, h, lookupField]
    · simp [setField, h, lookupField, ih]

/-- Setting one key leaves every other key's value unchanged. -/
theorem lookupField_setField_ne (fs : List (String × Int)) {k k' : String} (v : Int)
    (hne : k' ≠ k) : lookupField (setField fs k v) k' = lookupField fs k' := by
  have hk : ¬ k = k' := fun h2 => hne h2.symm
  induction fs with
  | nil =>
    simp only [setField, lookupField]
    rw [if_neg hk]
  | cons p rest ih =>
    by_cases h : p.1 = k
    · have hp : ¬ p.1 = k' := fun h2 => hne ((h.symm.trans h2).symm)
      simp only [setField, if_pos h, lookupField]
      rw [if_neg hk, if_neg hp]
    · simp only [setField, if_neg h, lookupField, ih]

/-- Unfolding equation of `applyUpdates` on an empty update dict. -/
theorem applyUpdates_nil (fs : List (String × Int)) : applyUpdates fs [] = fs := rfl

/-- Unfolding equation of `applyUpdates` on a nonempty update dict. -/
theorem applyUpdates_cons (fs : List (String × Int)) (p : String × Int)
    (us : List (String × Int)) :
    applyUpdates fs (p :: us) = applyUpdates (setField fs p.1 p.2) us := rfl

/-- Keys absent from the update dict keep their value after `dict.update`. -/
theorem lookupField_applyUpdates_untouched {us : List (String × Int)}
    {k : String} (fs : List (String × Int)) (h : ∀ p ∈ us, p.1 ≠ k) :
    lookupField (applyUpdates fs us) k = lookupField fs k := by
  induction us generalizing fs with
  | nil => rfl
  | cons p rest ih =>
    rw [applyUpdates_cons, ih _ (fun q hq => h q (List.mem_cons_of_mem _ hq)),
      lookupField_setField_ne _ _ (fun h2 => h p (List.mem_cons_self _ _) h2.symm)]

/-- Keys present in the update dict take the dict's value after
`dict.update`. -/
theorem lookupField_applyUpdates_updated {us : List (String × Int)}
    (fs : List (String × Int)) (hnd : (us.map Prod.fst).Nodup)
    {k : String} {v : Int} (hmem : (k, v) ∈ us) :
    lookupField (applyUpdates fs us) k = some v := by
  induction us generalizing fs with
  | nil => cases hmem
  | cons p rest ih =>
    rw [List.map_cons, List.nodup_cons] at hnd
    rcases List.mem_cons.mp hmem with h1 | h1
    · subst h1
      rw [applyUpdates_cons, lookupField_applyUpdates_untouched _ ?h1,
        lookupField_setField_self]
      intro q hq hqk
      apply hnd.1
      rw [← hqk]
      exact List.mem_map.mpr ⟨q, hq, rfl⟩
    · exact applyUpdates_cons _ _ _ ▸ ih _ hnd.2 h1

/-- Rows with a different id survive `_close_version` unchanged. -/
theorem closeVersion_mem_of_ne {db : List Row} {r : Row} (vid now : Nat)
    (h : r ∈ db) (hne : r.id ≠ vid) : r ∈ closeVersion db vid now := by
  unfold closeVersion
  have h2 : r = if r.id = vid then { r with validTo := some now } else r := by
    rw [if_neg hne]
  exact h2 ▸ List.mem_map_of_mem _ h

/-- The targeted row survives `_close_version` with its upper bound set. -/
theorem closeVersion_closed_mem {db : List Row} {r : Row} (now : Nat)
    (h : r ∈ db) : { r with validTo := some now } ∈ closeVersion db r.id now := by
  unfold closeVersion
  have h2 : ({ r with validTo := some now } : Row) =
      if r.id = r.id then { r with validTo := some now } else r := by rw [if_pos rfl]
  exact h2 ▸ List.mem_map_of_mem _ h

/-- Every row of a closed table comes from a row of the original table. -/
theorem mem_closeVersion {db : List Row} {r : Row} {vid now : Nat}
    (h : r ∈ closeVersion db vid now) :
    ∃ r0 ∈ db, r = if r0.id = vid then { r0 with validTo := some now } else r0 := by
  unfold closeVersion at h
  obtain ⟨r0, h0, heq⟩ := List.mem_map.mp h
  exact ⟨r0, h0, heq.symm⟩

/-- After `_close_version`, every row carrying the targeted id has its
`valid_time` upper bound set to the closing timestamp. -/
theorem closeVersion_closes {db : List Row} {vid now : Nat} {r : Row}
    (h : r ∈ closeVersion db vid now) (hid : r.id = vid) : r.validTo = some now := by
  obtain ⟨r0, _, heq⟩ := mem_closeVersion h
  by_cases h0 : r0.id = vid
  · rw [heq, if_pos h0]
  · rw [if_neg h0] at heq
    exact absurd (heq ▸ hid) h0

/-- Distinct stored rows have distinct ids when the id column is
duplicate-free. -/
theorem id_injective {db : List Row} (hids : (db.map Row.id).Nodup) {r s : Row}
    (hr : r ∈ db) (hs : s ∈ db) (hid : r.id = s.id) : r = s :=
  List.inj_on_of_nodup_map hids hr hs hid

/-- Inversion of a successful `CreateBranchCommand.execute`. -/
theorem createBranchCommand_ok {db db1 : List Row} {now rootId : Nat}
    {nb fb : String} {b : Row}
    (h : createBranchCommand db now rootId nb fb = .ok (db1, b)) :
    ∃ src, getCurrentOnBranch db rootId fb now = some src ∧
      db1 = db ++ [b] ∧
      b = src.clone (freshId db) now [] (some nb) (some (some src.id)) none := by
  unfold createBranchCommand at h
  cases hsrc : getCurrentOnBranch db rootId fb now with
  | none =>
    rw [hsrc] at h
    exact Except.noConfusion h
  | some src =>
    rw [hsrc] at h
    rw [Except.ok.injEq, Prod.mk.injEq] at h
    refine ⟨src, rfl, ?_, h.2.symm⟩
    rw [← h.1, ← h.2]

/-- Inversion of a successful `UpdateCommand.execute`. -/
theorem updateCommand_ok {db db1 : List Row} {now rootId : Nat} {branch : String}
    {us : List (String × Int)} {v : Row}
    (h : updateCommand db now rootId branch us = .ok (db1, v)) :
    ∃ c, getCurrentOnBranch db rootId branch now = some c ∧
      db1 = closeVersion db c.id now ++ [v] ∧
      v = c.clone (freshId db) now us none (some (some c.id)) none := by
  unfold updateCommand at h
  cases hcur : getCurrentOnBranch db rootId branch now with
  | none =>
    rw [hcur] at h
    exact Except.noConfusion h
  | some c =>
    rw [hcur] at h
    rw [Except.ok.injEq, Prod.mk.injEq] at h
    refine ⟨c, rfl, ?_, h.2.symm⟩
    rw [← h.1, ← h.2]

/-- Closing a version preserves the branch-restricted contents of the
table whenever no row carrying the targeted id lives on that branch. -/
theorem filter_branch_closeVersion (db : List Row) (vid now : Nat) (bname : String)
    (h : ∀ r ∈ db, r.id = vid → r.branch ≠ bname) :
    (closeVersion db vid now).filter (fun r => r.branch == bname) =
      db.filter (fun r => r.branch == bname) := by
  induction db with
  | nil => rfl
  | cons a rest ih =>
    have hrest := ih (fun r hr => h r (List.mem_cons_of_mem _ hr))
    unfold closeVersion at hrest ⊢
    simp only [List.map_cons, List.filter_cons]
    by_cases hid : a.id = vid
    · have hbr : a.branch ≠ bname := h a (List.mem_cons_self _ _) hid
      rw [if_pos hid]
      have h1 : (({ a with validTo := some now } : Row).branch == bname) = false := by
        simp [hbr]
      have h2 : (a.branch == bname) = false := by simp [hbr]
      simp only [List.filter_cons, h1, h2]
      rw [if_neg Bool.false_ne_true, if_neg Bool.false_ne_true]
      exact hrest
    · rw [if_neg hid]
      cases hab : (a.branch == bname) <;> simp [hab, hrest]

/-- The branch-scoped current query only depends on the branch's rows. -/
theorem getCurrentOnBranch_eq_filter_branch (l : List Row) (rootId : Nat)
    (branch : String) (t : Nat) :
    getCurrentOnBranch l rootId branch t =
      latest? ((l.filter fun r => r.branch == branch).filter
        fun r => r.rootId == rootId && containsNow r t && r.deletedAt == none) := by
  unfold getCurrentOnBranch
  rw [List.filter_filter]
  congr 1
  apply List.filter_congr
  intro a _
  cases a.rootId == rootId <;> cases a.branch == branch <;> cases containsNow a t <;>
    cases a.deletedAt == none <;> rfl

/-- Filtering commutes with a map that preserves the filter predicate. -/
theorem filter_map_pres (f : Row → Row) (p : Row → Bool)
    (hp : ∀ r, p (f r) = p r) (l : List Row) :
    (l.map f).filter p = (l.filter p).map f := by
  induction l with
  | nil => rfl
  | cons a rest ih =>
    simp only [List.map_cons, List.filter_cons, hp a]
    cases hpa : p a <;> simp [hpa, ih]

/-- Soft-deleting one row in place preserves the set of open rows of a
root (only `deleted_at` changes). -/
theorem openRowsFor_softDelete_map (db : List Row) (cid t rootId : Nat) :
    openRowsFor (db.map fun r => if r.id = cid then r.softDelete t else r) rootId =
      (openRowsFor db rootId).map fun r => if r.id = cid then r.softDelete t else r := by
  unfold openRowsFor
  apply filter_map_pres
  intro r
  by_cases h : r.id = cid <;> simp [h, Row.softDelete]

end EVCS

namespace EVCS

/-- Claim C1.  The at-most-one-current invariant is violated by the code:
after a successful `CreateVersionCommand` at time 0 and a successful
`UpdateVersionCommand` at time 1 on root 1, the pair `(1, "main")` has
two rows with open-ended `valid_time` and null `deleted_at`, because the
overridden `_close_version` of `UpdateVersionCommand` is a no-op stub. -/
theorem create_then_update_violates_at_most_one_current :
    (updateVersionCommand (createVersion [] 0 1 "main" [("a", 1)]).1 1 1
        [("a", 2)]).map
      (fun p => (openCurrentRows p.1 1 "main").length) = Except.ok 2 := rfl

/-- Claim C2.  Update preserves untouched fields: on a successful
`UpdateCommand`, fields absent from the update dict keep the current
snapshot's values, updated fields take the dict's values, the new row's
id is fresh and its `valid_time`/`transaction_time` start at the
operation's timestamp with an open upper bound, `parent_id` points at the
old current row, and every row carrying the old current row's id ends up
with its `valid_time` upper bound set to the operation's timestamp. -/
theorem update_preserves_untouched_fields (db : List Row) (now rootId : Nat)
    (branch : String) (us : List (String × Int)) (c : Row)
    (hc : getCurrentOnBranch db rootId branch now = some c)
    (hus : (us.map Prod.fst).Nodup) :
    ∃ db1 v, updateCommand db now rootId branch us = .ok (db1, v) ∧
      (∀ k, (∀ p ∈ us, p.1 ≠ k) → lookupField v.fields k = lookupField c.fields k) ∧
      (∀ p ∈ us, lookupField v.fields p.1 = some p.2) ∧
      v.validFrom = now ∧ v.validTo = none ∧ v.txFrom = now ∧
      (∀ r ∈ db, r.id ≠ v.id) ∧
      v.parentId = some c.id ∧
      ({ c with validTo := some now } ∈ db1) ∧
      (∀ r ∈ db1, r.id = c.id → r.validTo = some now) ∧
      v ∈ db1 := by
  obtain ⟨hmem, -, -, -, -⟩ := getCurrentOnBranch_spec hc
  unfold updateCommand
  rw [hc]
  refine ⟨_, _, rfl, ?_, ?_, rfl, rfl, rfl, ?_, rfl, ?_, ?_, ?_⟩
  · intro k hk
    exact lookupField_applyUpdates_untouched _ hk
  · intro p hp
    exact lookupField_applyUpdates_updated _ hus hp
  · intro r hr
    exact Nat.ne_of_lt (lt_freshId hr)
  · exact List.mem_append_left _ (closeVersion_closed_mem now hmem)
  · intro r hr hid
    rcases List.mem_append.mp hr with h1 | h1
    · exact closeVersion_closes h1 hid
    · rw [List.mem_singleton.mp h1] at hid
      exact absurd hid (lt_freshId hmem).ne'
  · exact List.mem_append_right _ (List.mem_singleton.mpr rfl)

/-- Witness for claim C2 at the concrete table `[rowAB]` (fields
`a = 1, b = 2`) with update dict `b = 3` at time 3. -/
theorem update_preserves_untouched_fields_witness :
    getCurrentOnBranch [rowAB] 5 "main" 3 = some rowAB ∧
    (([(("b" : String), (3 : Int))].map Prod.fst).Nodup) ∧
    (∃ db1 v, updateCommand [rowAB] 3 5 "main" [("b", 3)] = .ok (db1, v) ∧
      (∀ k, (∀ p ∈ [(("b" : String), (3 : Int))], p.1 ≠ k) →
        lookupField v.fields k = lookupField rowAB.fields k) ∧
      (∀ p ∈ [(("b" : String), (3 : Int))], lookupField v.fields p.1 = some p.2) ∧
      v.validFrom = 3 ∧ v.validTo = none ∧ v.txFrom = 3 ∧
      (∀ r ∈ [rowAB], r.id ≠ v.id) ∧
      v.parentId = some rowAB.id ∧
      ({ rowAB with validTo := some 3 } ∈ db1) ∧
      (∀ r ∈ db1, r.id = rowAB.id → r.validTo = some 3) ∧
      v ∈ db1) :=
  ⟨by decide, by decide,
    update_preserves_untouched_fields [rowAB] 3 5 "main" [("b", 3)] rowAB
      (by decide) (by decide)⟩

/-- Claim C3.  Merge overwrite semantics: on a successful
`MergeBranchCommand` the new row lives on the target branch, its business
fields equal the source head's fields, `parent_id` is the old target
head's id, `merge_from_branch` records the source branch, the old target
head is closed at the operation's timestamp, and the source head is still
stored unchanged. -/
theorem merge_overwrites_target (db : List Row) (now rootId : Nat)
    (sourceBranch targetBranch : String) (s t : Row)
    (hs : getCurrentOnBranch db rootId sourceBranch now = some s)
    (ht : getCurrentOnBranch db rootId targetBranch now = some t)
    (hbr : sourceBranch ≠ targetBranch)
    (hids : (db.map Row.id).Nodup) :
    ∃ db1 m, mergeBranchCommand db now rootId sourceBranch targetBranch =
        .ok (db1, m) ∧
      m.fields = s.fields ∧ m.branch = targetBranch ∧
      m.parentId = some t.id ∧ m.mergeFromBranch = some sourceBranch ∧
      m.validFrom = now ∧ m.validTo = none ∧ m.deletedAt = none ∧
      ({ t with validTo := some now } ∈ db1) ∧
      (∀ r ∈ db1, r.id = t.id → r.validTo = some now) ∧
      s ∈ db1 ∧ m ∈ db1 := by
  obtain ⟨hsmem, -, hsbr, -, hsdel⟩ := getCurrentOnBranch_spec hs
  obtain ⟨htmem, -, htbr, -, -⟩ := getCurrentOnBranch_spec ht
  have hne : s.id ≠ t.id := fun he =>
    hbr (by rw [← hsbr, ← htbr, id_injective hids hsmem htmem he])
  unfold mergeBranchCommand
  rw [hs, ht]
  refine ⟨_, _, rfl, rfl, rfl, rfl, rfl, rfl, rfl, hsdel, ?_, ?_, ?_, ?_⟩
  · exact List.mem_append_left _ (closeVersion_closed_mem now htmem)
  · intro r hr hid
    rcases List.mem_append.mp hr with h1 | h1
    · exact closeVersion_closes h1 hid
    · rw [List.mem_singleton.mp h1] at hid
      exact absurd hid (lt_freshId htmem).ne'
  · exact List.mem_append_left _ (closeVersion_mem_of_ne _ _ hsmem hne)
  · exact List.mem_append_right _ (List.mem_singleton.mpr rfl)

/-- Witness for claim C3: merging branch `feature` (head `featRow`) into
branch `main` (head `sampleRow`) of root 5 at time 3. -/
theorem merge_overwrites_target_witness :
    getCurrentOnBranch [sampleRow, featRow] 5 "feature" 3 = some featRow ∧
    getCurrentOnBranch [sampleRow, featRow] 5 "main" 3 = some sampleRow ∧
    ("feature" : String) ≠ "main" ∧
    (([sampleRow, featRow].map Row.id).Nodup) ∧
    (∃ db1 m, mergeBranchCommand [sampleRow, featRow] 3 5 "feature" "main" =
        .ok (db1, m) ∧
      m.fields = featRow.fields ∧ m.branch = "main" ∧
      m.parentId = some sampleRow.id ∧ m.mergeFromBranch = some "feature" ∧
      m.validFrom = 3 ∧ m.validTo = none ∧ m.deletedAt = none ∧
      ({ sampleRow with validTo := some 3 } ∈ db1) ∧
      (∀ r ∈ db1, r.id = sampleRow.id → r.validTo = some 3) ∧
      featRow ∈ db1 ∧ m ∈ db1) :=
  ⟨by decide, by decide, by decide, by decide,
    merge_overwrites_target [sampleRow, featRow] 3 5 "feature" "main" featRow
      sampleRow (by decide) (by decide) (by decide) (by decide)⟩

/-- Claim C4.  Revert restores content, not identity: on a successful
`RevertCommand` (explicit `to_version_id = v1.id` or defaulting to the
current head's `parent_id`), the new row's business fields equal `v1`'s,
its `parent_id` is the closed head `v2`'s id (not `v1.id`), its
`merge_from_branch` is null, `v1` is still stored unchanged, and `v2`
survives changed only in its `valid_time` upper bound. -/
theorem revert_restores_content_not_identity (db : List Row) (now rootId : Nat)
    (branch : String) (v1 v2 : Row) (tv : Option Nat)
    (hc : getCurrentOnBranch db rootId branch now = some v2)
    (hp : v2.parentId = some v1.id)
    (hg : sessionGet db v1.id = some v1)
    (htv : tv = none ∨ tv = some v1.id)
    (hne : v1.id ≠ v2.id) :
    ∃ db1 v3, revertCommand db now rootId branch tv = .ok (db1, v3) ∧
      v3.fields = v1.fields ∧ v3.parentId = some v2.id ∧
      v3.mergeFromBranch = none ∧ v3.branch = branch ∧ v3.validTo = none ∧
      v1 ∈ db1 ∧ ({ v2 with validTo := some now } ∈ db1) ∧
      (∀ r ∈ db1, r.id = v2.id → r.validTo = some now) ∧ v3 ∈ db1 := by
  obtain ⟨h2mem, -, -, -, -⟩ := getCurrentOnBranch_spec hc
  obtain ⟨h1mem, -⟩ := sessionGet_mem hg
  have hres : revertCommand db now rootId branch tv =
      .ok (closeVersion db v2.id now ++
            [v1.clone (freshId db) now [] (some branch) (some (some v2.id))
              (some none)],
          v1.clone (freshId db) now [] (some branch) (some (some v2.id))
            (some none)) := by
    rcases htv with h | h <;> subst h <;> unfold revertCommand <;> rw [hc]
    · simp only [hp, hg]
    · simp only [hg]
  rw [hres]
  refine ⟨_, _, rfl, rfl, rfl, rfl, rfl, rfl, ?_, ?_, ?_, ?_⟩
  · exact List.mem_append_left _ (closeVersion_mem_of_ne _ _ h1mem hne)
  · exact List.mem_append_left _ (closeVersion_closed_mem now h2mem)
  · intro r hr hid
    rcases List.mem_append.mp hr with h1 | h1
    · exact closeVersion_closes h1 hid
    · rw [List.mem_singleton.mp h1] at hid
      exact absurd hid (lt_freshId h2mem).ne'
  · exact List.mem_append_right _ (List.mem_singleton.mpr rfl)

/-- Witness for claim C4: root 5 with history `histRow1` (closed) and
current head `histRow2` whose parent is `histRow1`, reverted at time 3
with no explicit target. -/
theorem revert_restores_content_not_identity_witness :
    getCurrentOnBranch [histRow1, histRow2] 5 "main" 3 = some histRow2 ∧
    histRow2.parentId = some histRow1.id ∧
    sessionGet [histRow1, histRow2] histRow1.id = some histRow1 ∧
    ((none : Option Nat) = none ∨ (none : Option Nat) = some histRow1.id) ∧
    histRow1.id ≠ histRow2.id ∧
    (∃ db1 v3, revertCommand [histRow1, histRow2] 3 5 "main" none = .ok (db1, v3) ∧
      v3.fields = histRow1.fields ∧ v3.parentId = some histRow2.id ∧
      v3.mergeFromBranch = none ∧ v3.branch = "main" ∧ v3.validTo = none ∧
      histRow1 ∈ db1 ∧ ({ histRow2 with validTo := some 3 } ∈ db1) ∧
      (∀ r ∈ db1, r.id = histRow2.id → r.validTo = some 3) ∧ v3 ∈ db1) :=
  ⟨by decide, by decide, by decide, Or.inl rfl, by decide,
    revert_restores_content_not_identity [histRow1, histRow2] 3 5 "main" histRow1
      histRow2 none (by decide) (by decide) (by decide) (Or.inl rfl) (by decide)⟩

end EVCS

namespace EVCS

/-- Claim C5.  Branch isolation: a successful `CreateBranchCommand` from
the main branch followed by a successful `UpdateCommand` on the new
branch leaves the main branch's rows — and hence the main branch's
current snapshot at every query time — exactly as they were. -/
theorem branch_isolation (db : List Row) (now1 now2 rootId : Nat)
    (mainBranch featureBranch : String) (us : List (String × Int))
    (db1 db2 : List Row) (b v : Row)
    (hbne : featureBranch ≠ mainBranch)
    (hids : (db.map Row.id).Nodup)
    (h1 : createBranchCommand db now1 rootId featureBranch mainBranch =
      .ok (db1, b))
    (h2 : updateCommand db1 now2 rootId featureBranch us = .ok (db2, v)) :
    db2.filter (fun r => r.branch == mainBranch) =
      db.filter (fun r => r.branch == mainBranch) ∧
    ∀ t, getCurrentOnBranch db2 rootId mainBranch t =
      getCurrentOnBranch db rootId mainBranch t := by
  obtain ⟨src, hsrc, hdb1, hb⟩ := createBranchCommand_ok h1
  obtain ⟨c1, hcur, hdb2, hv⟩ := updateCommand_ok h2
  obtain ⟨hc1mem, -, hc1br, -, -⟩ := getCurrentOnBranch_spec hcur
  have hbid : b.id = freshId db := by
    rw [hb]
    rfl
  have hids1 : (db1.map Row.id).Nodup := by
    rw [hdb1, List.map_append]
    refine List.Nodup.append hids (List.nodup_singleton _) ?_
    intro x hx hy
    rw [List.map_singleton, List.mem_singleton] at hy
    obtain ⟨r, hr, hrid⟩ := List.mem_map.mp hx
    rw [hy, hbid] at hrid
    exact absurd hrid (Nat.ne_of_lt (lt_freshId hr))
  have hvbr : v.branch = featureBranch := by
    rw [hv]
    exact hc1br
  have hbbr : b.branch = featureBranch := by
    rw [hb]
    rfl
  have hmain1 : db1.filter (fun r => r.branch == mainBranch) =
      db.filter (fun r => r.branch == mainBranch) := by
    rw [hdb1, List.filter_append]
    have hf : (b.branch == mainBranch) = false := by simp [hbbr, hbne]
    simp [hf]
  have hmain2 : db2.filter (fun r => r.branch == mainBranch) =
      db1.filter (fun r => r.branch == mainBranch) := by
    rw [hdb2, List.filter_append]
    have hf : (v.branch == mainBranch) = false := by simp [hvbr, hbne]
    rw [filter_branch_closeVersion db1 c1.id now2 mainBranch ?hh]
    · simp [hf]
    · intro r hr hid
      rw [id_injective hids1 hr hc1mem hid, hc1br]
      exact hbne
  refine ⟨hmain2.trans hmain1, fun t => ?_⟩
  rw [getCurrentOnBranch_eq_filter_branch db2, getCurrentOnBranch_eq_filter_branch db,
    hmain2.trans hmain1]

/-- Witness for claim C5: root 5 with main head `sampleRow`, branched to
`feature` at time 1 and updated there at time 2. -/
theorem branch_isolation_witness :
    ("feature" : String) ≠ "main" ∧
    (([sampleRow].map Row.id).Nodup) ∧
    createBranchCommand [sampleRow] 1 5 "feature" "main" =
      .ok ([sampleRow, branchedRow], branchedRow) ∧
    updateCommand [sampleRow, branchedRow] 2 5 "feature" [("name", 7)] =
      .ok ([sampleRow, closedBranchedRow, updatedRow], updatedRow) ∧
    ([sampleRow, closedBranchedRow, updatedRow].filter
        (fun r => r.branch == "main") =
      [sampleRow].filter (fun r => r.branch == "main")) ∧
    ∀ t, getCurrentOnBranch [sampleRow, closedBranchedRow, updatedRow] 5 "main" t =
      getCurrentOnBranch [sampleRow] 5 "main" t :=
  ⟨by decide, by decide, rfl, rfl,
    branch_isolation [sampleRow] 1 2 5 "main" "feature" [("name", 7)]
      [sampleRow, branchedRow] [sampleRow, closedBranchedRow, updatedRow]
      branchedRow updatedRow (by decide) (by decide) rfl rfl⟩

/-- Claim C6, counterexample.  `SoftDeleteCommand` invoked on an empty
table (root 42 has no current snapshot) returns normally with `None`
instead of failing: the claim that it raises `NotFoundError` is false. -/
theorem softDelete_missing_silently_succeeds :
    softDeleteCommand [] 0 42 = .ok ([], none) := rfl

/-- Claim C6 as amended.  When no current snapshot exists for the root,
`SoftDeleteCommand` leaves the table unchanged and returns `None`
without raising any error. -/
theorem softDelete_missing_returns_none (db : List Row) (now rootId : Nat)
    (h : getCurrentVersioned db rootId now = none) :
    softDeleteCommand db now rootId = .ok (db, none) := by
  unfold softDeleteCommand
  rw [h]

/-- Witness for the amended claim C6 at the empty table and root 7. -/
theorem softDelete_missing_returns_none_witness :
    getCurrentVersioned [] 0 7 = none ∧ softDeleteCommand [] 0 7 = .ok ([], none) :=
  ⟨by decide, softDelete_missing_returns_none [] 0 7 (by decide)⟩

/-- Claim C7.  Revert with no target: when the branch's current snapshot
has no `parent_id` and no explicit `to_version_id` is supplied,
`RevertCommand` fails with the revert-specific error (the spec's
`ValidationError`, raised in the source as `ValueError("Cannot revert:
No target version specified or no parent found.")`) instead of silently
doing nothing. -/
theorem revert_without_target_fails (db : List Row) (now rootId : Nat)
    (branch : String) (c : Row)
    (hc : getCurrentOnBranch db rootId branch now = some c)
    (hp : c.parentId = none) :
    revertCommand db now rootId branch none = .error .cannotRevert := by
  unfold revertCommand
  rw [hc]
  simp [hp]

/-- Witness for claim C7: root 5 whose only snapshot `sampleRow` has no
parent, reverted with no explicit target at time 3. -/
theorem revert_without_target_fails_witness :
    getCurrentOnBranch [sampleRow] 5 "main" 3 = some sampleRow ∧
      sampleRow.parentId = none ∧
      revertCommand [sampleRow] 3 5 "main" none = .error .cannotRevert :=
  ⟨by decide, by decide,
    revert_without_target_fails [sampleRow] 3 5 "main" sampleRow (by decide)
      (by decide)⟩

end EVCS

namespace EVCS

/-- Claim C8.  Soft-delete idempotence: starting from a table whose only
open-ended row for the root is its current (not deleted) snapshot `c`
and whose other rows for the root were closed no later than the first
deletion time, two consecutive `SoftDeleteCommand` invocations both
return successfully (the second is a no-op returning `None`), and the
table ends with exactly one open-ended snapshot for the root, which
carries `deleted_at` set. -/
theorem softDelete_twice_idempotent (db : List Row) (t1 t2 rootId : Nat) (c : Row)
    (hopen : openRowsFor db rootId = [c])
    (hdel : c.deletedAt = none)
    (hfrom : c.validFrom ≤ t1)
    (h12 : t1 ≤ t2)
    (hclosed : ∀ r ∈ db, r.rootId = rootId → r.validTo = none ∨
      ∃ u, r.validTo = some u ∧ u ≤ t1) :
    ∃ db1, softDeleteCommand db t1 rootId = .ok (db1, some (c.softDelete t1)) ∧
      softDeleteCommand db1 t2 rootId = .ok (db1, none) ∧
      openRowsFor db1 rootId = [c.softDelete t1] ∧
      (c.softDelete t1).deletedAt = some t1 := by
  have hcmem : c ∈ db := by
    have hc : c ∈ openRowsFor db rootId := by
      rw [hopen]
      exact List.mem_singleton.mpr rfl
    exact (List.mem_filter.mp hc).1
  have honly : ∀ r ∈ db, r.rootId = rootId → r.validTo = none → r = c := by
    intro r hr hroot hto
    have hr2 : r ∈ openRowsFor db rootId :=
      List.mem_filter.mpr ⟨hr, by simp [hroot, hto]⟩
    rw [hopen] at hr2
    exact List.mem_singleton.mp hr2
  have hfilter1 : db.filter (fun r => r.rootId == rootId && containsNow r t1 &&
      r.deletedAt == none) = [c] := by
    rw [← hopen]
    unfold openRowsFor
    apply List.filter_congr
    intro r hr
    by_cases hroot : r.rootId = rootId
    · rcases hclosed r hr hroot with hto | ⟨u, hu, hule⟩
      · have hrc : r = c := honly r hr hroot hto
        subst hrc
        simp [hroot, hto, hdel, containsNow, hfrom]
      · have hc1 : containsNow r t1 = false := by
          unfold containsNow
          rw [hu]
          simp [Nat.not_lt.mpr hule]
        simp [hroot, hu, hc1]
    · have hf : (r.rootId == rootId) = false := by simp [hroot]
      simp [hf]
  have hget1 : getCurrentVersioned db rootId t1 = some c := by
    unfold getCurrentVersioned
    rw [hfilter1]
    rfl
  refine ⟨db.map fun r => if r.id = c.id then r.softDelete t1 else r, ?_, ?_, ?_, rfl⟩
  · unfold softDeleteCommand
    rw [hget1]
  · have hget2 : getCurrentVersioned
        (db.map fun r => if r.id = c.id then r.softDelete t1 else r) rootId t2 =
        none := by
      unfold getCurrentVersioned
      have hnil : ((db.map fun r => if r.id = c.id then r.softDelete t1 else r).filter
          fun r => r.rootId == rootId && containsNow r t2 && r.deletedAt == none) =
          [] := by
        rw [List.filter_eq_nil_iff]
        intro r hr
        obtain ⟨r0, hr0, hfr⟩ := List.mem_map.mp hr
        subst hfr
        by_cases hroot : r0.rootId = rootId
        · rcases hclosed r0 hr0 hroot with hto | ⟨u, hu, hule⟩
          · have hrc : r0 = c := honly r0 hr0 hroot hto
            subst hrc
            simp [Row.softDelete]
          · have hto2 : (if r0.id = c.id then r0.softDelete t1 else r0).validTo =
                some u := by
              by_cases h : r0.id = c.id <;> simp [h, Row.softDelete, hu]
            have hcn : containsNow
                (if r0.id = c.id then r0.softDelete t1 else r0) t2 = false := by
              unfold containsNow
              rw [hto2]
              simp [Nat.not_lt.mpr (le_trans hule h12)]
            simp [hcn]
        · have hro : (if r0.id = c.id then r0.softDelete t1 else r0).rootId =
              r0.rootId := by
            by_cases h : r0.id = c.id <;> simp [h, Row.softDelete]
          simp [hro, hroot]
      rw [hnil]
      rfl
    unfold softDeleteCommand
    rw [hget2]
  · rw [openRowsFor_softDelete_map, hopen]
    simp

/-- Witness for claim C8: root 5 whose only row is its current snapshot
`sampleRow`, soft-deleted at times 1 and 2. -/
theorem softDelete_twice_idempotent_witness :
    openRowsFor [sampleRow] 5 = [sampleRow] ∧
    sampleRow.deletedAt = none ∧
    sampleRow.validFrom ≤ 1 ∧ (1 : Nat) ≤ 2 ∧
    (∀ r ∈ [sampleRow], r.rootId = 5 → r.validTo = none ∨
      ∃ u, r.validTo = some u ∧ u ≤ 1) ∧
    (∃ db1, softDeleteCommand [sampleRow] 1 5 =
        .ok (db1, some (sampleRow.softDelete 1)) ∧
      softDeleteCommand db1 2 5 = .ok (db1, none) ∧
      openRowsFor db1 5 = [sampleRow.softDelete 1] ∧
      (sampleRow.softDelete 1).deletedAt = some 1) :=
  ⟨by decide, by decide, by decide, by decide,
    by
      intro r hr hroot
      rw [List.mem_singleton.mp hr]
      exact Or.inl rfl,
    softDelete_twice_idempotent [sampleRow] 1 2 5 sampleRow (by decide) (by decide)
      (by decide) (by decide)
      (by
        intro r hr hroot
        rw [List.mem_singleton.mp hr]
        exact Or.inl rfl)⟩

/-- Claim C9.  Root-field resolution convention: for the entity classes
the generic commands are used with in this repository (`User` in
`UserService`, `Project` in `BranchableService`, with `UserVersion` as
the spec's own example), the column name computed by `_root_field_name`
agrees with the spec's formula (lower-case, strip a recognized
version/snapshot suffix, append `_id`) and yields the documented
examples. -/
theorem root_field_resolution :
    rootFieldName "User" = specRootFieldName "User" ∧
    rootFieldName "Project" = specRootFieldName "Project" ∧
    rootFieldName "UserVersion" = specRootFieldName "UserVersion" ∧
    rootFieldName "UserVersion" = "user_id" ∧
    rootFieldName "Project" = "project_id" ∧
    rootFieldName "User" = "user_id" := by decide

/-- Claim C10.  Revert accepts a foreign target: with an explicit
`to_version_id` resolving to any stored snapshot `f` — even one with a
different root id or branch — `RevertCommand` still succeeds and the new
head is a clone of `f`: its root-identifier field and business fields
come from `f`, while its `parent_id` is the current head's id and it is
placed on the requested branch. -/
theorem revert_accepts_foreign_target (db : List Row) (now rootId : Nat)
    (branch : String) (c f : Row) (fid : Nat)
    (hc : getCurrentOnBranch db rootId branch now = some c)
    (hf : sessionGet db fid = some f)
    (_hforeign : f.rootId ≠ rootId ∨ f.branch ≠ branch) :
    ∃ db1 v, revertCommand db now rootId branch (some fid) = .ok (db1, v) ∧
      v.rootId = f.rootId ∧ v.fields = f.fields ∧ v.parentId = some c.id ∧
      v.branch = branch ∧ v.mergeFromBranch = none := by
  unfold revertCommand
  rw [hc]
  simp only [hf]
  exact ⟨_, _, rfl, rfl, rfl, rfl, rfl, rfl⟩

/-- Witness for claim C10: reverting root 5 on `main` (head `sampleRow`)
to `foreignRow`, a snapshot of root 9 on branch `other`. -/
theorem revert_accepts_foreign_target_witness :
    getCurrentOnBranch [sampleRow, foreignRow] 5 "main" 3 = some sampleRow ∧
      sessionGet [sampleRow, foreignRow] 2 = some foreignRow ∧
      (foreignRow.rootId ≠ 5 ∨ foreignRow.branch ≠ "main") ∧
      (∃ db1 v,
        revertCommand [sampleRow, foreignRow] 3 5 "main" (some 2) = .ok (db1, v) ∧
        v.rootId = foreignRow.rootId ∧ v.fields = foreignRow.fields ∧
        v.parentId = some sampleRow.id ∧ v.branch = "main" ∧
        v.mergeFromBranch = none) :=
  ⟨by decide, by decide, by decide,
    revert_accepts_foreign_target [sampleRow, foreignRow] 3 5 "main" sampleRow
      foreignRow 2 (by decide) (by decide) (by decide)⟩

end EVCS
